import Mathlib

/-!
# Verification of the goloop/set container

A shallow embedding of the `set` Go package: a generic set container whose
elements are stored in a map keyed by a deterministic string/hash rendering
of each element, with every operation existing in a plain form and an
explicit-token (`context.Context`) form.

The embedding mirrors the method implementations of `set.go`
(src/unnamed/part_000, third revision, lines 1635-2686), the package-level
functions of `src/fn.go`, and the structural hasher of `src/tools.go`.

Conventions of the embedding:
* A Go `context.Context` is modelled by `Ctx`: `nil` (the Go nil context,
  replaced by `context.Background()` at each function entry), `live`
  (a context that is never cancelled during the call), and `cancelled`
  (a context whose `Done` channel is already closed before the call).
  Since the embedded operations are sequential, a token's state is constant
  for the duration of one call, so these three states are exhaustive.
* The Go map `heap` is modelled as an association list `List (String × α)`;
  `mapInsert` overwrites the entry with an equal key, as Go map assignment
  does, and `len` is the list length.  The element-to-key function
  (`toHash` on the simple path, `toStr` on the complex path) is abstracted
  into a parameter `kf : α → String`, which is a fixed pure function during
  live operation, exactly as reflection-based rendering is for a fixed
  element type.
* A Go `(value, error)` return is a pair `β × Option GoErr`; `GoErr.canceled`
  is `context.Canceled`.
-/

namespace GoloopSet

/-- The state of a `context.Context` argument as seen by one sequential call:
Go `nil` (replaced by `context.Background()`), a live context, or a context
already cancelled before the call. -/
inductive Ctx where
  | nil
  | live
  | cancelled
deriving DecidableEq

/-- The only error the core produces: `context.Canceled`. -/
inductive GoErr where
  | canceled
deriving DecidableEq

/-- Whether `select case <-ctx.Done()` fires.  A Go `nil` context is first
replaced by `context.Background()`, which is never done. -/
def Ctx.done : Ctx → Bool
  | .cancelled => true
  | _ => false

/-- The Go map underlying a set: an association list from hash keys to
stored elements. -/
abbrev Heap (α : Type) := List (String × α)

/-- Go map assignment `heap[k] = v`: overwrite the entry with key `k` if it
exists, otherwise add a new entry. -/
def mapInsert {α : Type} (h : Heap α) (k : String) (v : α) : Heap α :=
  match h with
  | [] => [(k, v)]
  | p :: rest => if p.1 = k then (k, v) :: rest else p :: mapInsert rest k v

/-- Go `delete(heap, k)`. -/
def mapDelete {α : Type} (h : Heap α) (k : String) : Heap α :=
  h.filter (fun p => p.1 != k)

/-- Go `_, ok := heap[k]`. -/
def containsKey {α : Type} (h : Heap α) (k : String) : Bool :=
  h.any (fun p => p.1 == k)

/-- The stored elements of the map, in iteration order. -/
def heapValues {α : Type} (h : Heap α) : List α :=
  h.map Prod.snd

/-- `Set[T]` of `set.go`: the backing map and the default context stored at
construction (the cached `simple` classification is absorbed into the key
function parameter `kf`). -/
structure GoSet (α : Type) where
  heap : Heap α
  ctx : Ctx
deriving DecidableEq

/-- `New[T]()`: the empty set a combinator allocates for its result
(`NewWithContext` with a Go `nil` context and no items). -/
def emptySet {α : Type} : GoSet α := { heap := [], ctx := .nil }

section Ops

variable {α β : Type} (kf : α → String)

/-- One iteration of the `addWithContext` body on a single item: the
`select` on `ctx.Done()`, then `s.heap[s.toHash(ctx, v)] = v`.  The hash
call checks the same token again, so with a constant token it cannot fail
once the `select` has passed. -/
def addOneWithContext (ctx : Ctx) (h : Heap α) (v : α) : Heap α × Option GoErr :=
  if ctx.done then (h, some .canceled)
  else (mapInsert h (kf v) v, none)

/-- `addWithContext` (set.go lines 1749-1771): add the items one by one,
checking the token before each. -/
def addWithContext (ctx : Ctx) (s : GoSet α) : List α → GoSet α × Option GoErr
  | [] => (s, none)
  | v :: items =>
    match addOneWithContext kf ctx s.heap v with
    | (_, some e) => (s, some e)
    | (h, none) => addWithContext ctx { s with heap := h } items

/-- `Add` (set.go lines 1782-1784): the plain form runs `addWithContext`
with the set's default token and discards the error. -/
def add (s : GoSet α) (items : List α) : GoSet α :=
  (addWithContext kf s.ctx s items).1

/-- `deleteWithContext` (set.go lines 1786-1809). -/
def deleteWithContext (ctx : Ctx) (s : GoSet α) : List α → GoSet α × Option GoErr
  | [] => (s, none)
  | v :: items =>
    if ctx.done then (s, some .canceled)
    else deleteWithContext ctx { s with heap := mapDelete s.heap (kf v) } items

/-- `Delete` (set.go lines 1821-1823). -/
def deleteItems (s : GoSet α) (items : List α) : GoSet α :=
  (deleteWithContext kf s.ctx s items).1

/-- `containsWithContext` (set.go lines 1825-1843): hash the item (which
aborts on a done token), then look it up. -/
def containsWithContext (ctx : Ctx) (s : GoSet α) (item : α) : Bool × Option GoErr :=
  if ctx.done then (false, some .canceled)
  else (containsKey s.heap (kf item), none)

/-- `Contains` (set.go lines 1856-1859). -/
def contains (s : GoSet α) (item : α) : Bool :=
  (containsWithContext kf s.ctx s item).1

/-- The loop of `elementsWithContext`: `select` before appending each value. -/
def elemsLoop (d : Bool) : Heap α → List α → List α × Option GoErr
  | [], acc => (acc, none)
  | p :: rest, acc =>
    if d then ([], some .canceled)
    else elemsLoop d rest (acc ++ [p.2])

/-- `elementsWithContext` (set.go lines 1861-1881). -/
def elementsWithContext (ctx : Ctx) (s : GoSet α) : List α × Option GoErr :=
  elemsLoop ctx.done s.heap []

/-- `Elements` (set.go lines 1893-1896). -/
def elements (s : GoSet α) : List α :=
  (elementsWithContext s.ctx s).1

/-- Insertion step of the comparison sort modelling `sort.Slice`. -/
def insertSorted (lt : β → β → Bool) (x : β) : List β → List β
  | [] => [x]
  | y :: ys => if lt x y then x :: y :: ys else y :: insertSorted lt x ys

/-- A comparison sort modelling one `sort.Slice` pass. -/
def sortSlice (lt : β → β → Bool) (l : List β) : List β :=
  l.foldl (fun acc x => insertSorted lt x acc) []

/-- First loop of `sortedWithContext`: gather the key/value pairs with a
token check per iteration. -/
def sortedGather (d : Bool) : Heap α → Heap α → Heap α × Option GoErr
  | [], acc => (acc, none)
  | p :: rest, acc =>
    if d then ([], some .canceled)
    else sortedGather d rest (acc ++ [p])

/-- Final loop of `sortedWithContext`: copy the sorted values out with a
token check per iteration. -/
def sortedCopy (d : Bool) : Heap α → List α → List α × Option GoErr
  | [], acc => (acc, none)
  | p :: rest, acc =>
    if d then ([], some .canceled)
    else sortedCopy d rest (acc ++ [p.2])

/-- `sortedWithContext` (set.go lines 1898-1948): gather, sort (by stored
key when no comparison functions are given, else one `sort.Slice` pass per
function), copy out. -/
def sortedWithContext (ctx : Ctx) (s : GoSet α) (fns : List (α → α → Bool)) :
    List α × Option GoErr :=
  match sortedGather ctx.done s.heap [] with
  | (_, some e) => ([], some e)
  | (tmp, none) =>
    let tmp2 :=
      if fns.isEmpty then sortSlice (fun a b => a.1 < b.1) tmp
      else fns.foldl (fun acc fn => sortSlice (fun a b => fn a.2 b.2) acc) tmp
    sortedCopy ctx.done tmp2 []

/-- `Sorted` (set.go lines 1958-1961). -/
def sorted (s : GoSet α) (fns : List (α → α → Bool)) : List α :=
  (sortedWithContext s.ctx s fns).1

/-- The loop of `filteredWithContext`: `select` first, then keep the value
if the predicate holds. -/
def filteredLoop (d : Bool) (fn : α → Bool) : Heap α → List α → List α × Option GoErr
  | [], acc => (acc, none)
  | p :: rest, acc =>
    if d then ([], some .canceled)
    else filteredLoop d fn rest (if fn p.2 then acc ++ [p.2] else acc)

/-- `filteredWithContext` (set.go lines 1963-1988). -/
def filteredWithContext (ctx : Ctx) (s : GoSet α) (fn : α → Bool) :
    List α × Option GoErr :=
  filteredLoop ctx.done fn s.heap []

/-- `Filtered` (set.go lines 2000-2003). -/
def filtered (s : GoSet α) (fn : α → Bool) : List α :=
  (filteredWithContext s.ctx s fn).1

/-- The loop of the method `reduceWithContext` (set.go lines 2276-2298):
`select` first, then `acc = fn(acc, v)`. -/
def reduceLoop (d : Bool) (f : α → α → α) : Heap α → α → α × Option GoErr
  | [], acc => (acc, none)
  | p :: rest, acc =>
    if d then (acc, some .canceled)
    else reduceLoop d f rest (f acc p.2)

/-- `reduceWithContext` (set.go lines 2276-2298); `zeroT` is the Go zero
value produced by `var acc T`. -/
def reduceWithContext (ctx : Ctx) (s : GoSet α) (f : α → α → α) (zeroT : α) :
    α × Option GoErr :=
  reduceLoop ctx.done f s.heap zeroT

/-- The method `Reduce` (set.go lines 2315-2318).  Note the source passes a
`nil` context here, not the set's stored default token. -/
def reduce (s : GoSet α) (f : α → α → α) (zeroT : α) : α :=
  (reduceWithContext Ctx.nil s f zeroT).1

/-- `unionWithContext` (set.go lines 2018-2042): collect the elements of
both sets (each collection cancellable), re-inserting them into a freshly
constructed result via plain `Add`, whose fresh result set has a `nil`
default token. -/
def addAll (h : Heap α) : List α → Heap α
  | [] => h
  | v :: vs => addAll (mapInsert h (kf v) v) vs

/-- `unionWithContext` (set.go lines 2018-2042). -/
def unionWithContext (ctx : Ctx) (s other : GoSet α) : GoSet α × Option GoErr :=
  match elementsWithContext ctx s with
  | (_, some e) => (emptySet, some e)
  | (e1, none) =>
    match elementsWithContext ctx other with
    | (_, some e) => (emptySet, some e)
    | (e2, none) => ({ heap := addAll kf (addAll kf [] e1) e2, ctx := .nil }, none)

/-- The method `Union` (set.go lines 2058-2061). -/
def union (s other : GoSet α) : GoSet α :=
  (unionWithContext kf s.ctx s other).1

/-- The loop of `intersectionWithContext`: `containsWithContext` on the
other set with the passed token, then `addWithContext` into the result on a
hit; any error aborts with a fresh empty set. -/
def interLoop (ctx : Ctx) (other : GoSet α) : Heap α → Heap α → Heap α × Option GoErr
  | [], r => (r, none)
  | p :: rest, r =>
    match containsWithContext kf ctx other p.2 with
    | (_, some e) => ([], some e)
    | (true, none) =>
      match addOneWithContext kf ctx r p.2 with
      | (_, some e) => ([], some e)
      | (r', none) => interLoop ctx other rest r'
    | (false, none) => interLoop ctx other rest r

/-- `intersectionWithContext` (set.go lines 2065-2087). -/
def intersectionWithContext (ctx : Ctx) (s other : GoSet α) : GoSet α × Option GoErr :=
  match interLoop kf ctx other s.heap [] with
  | (_, some e) => (emptySet, some e)
  | (r, none) => ({ heap := r, ctx := .nil }, none)

/-- The method `Intersection` (set.go lines 2100-2103). -/
def intersection (s other : GoSet α) : GoSet α :=
  (intersectionWithContext kf s.ctx s other).1

/-- The loop shared by `differenceWithContext` and both passes of
`symmetricDifferenceWithContext`: `select` first, then
`if !other.Contains(v) { result.Add(v) }`.  Both inner calls are the plain
forms: the membership test uses `other`'s own default token and the insertion
uses the fresh result set's `nil` token. -/
def diffLoop (d : Bool) (other : GoSet α) : Heap α → Heap α → Heap α × Option GoErr
  | [], r => (r, none)
  | p :: rest, r =>
    if d then ([], some .canceled)
    else diffLoop d other rest
      (if contains kf other p.2 then r else mapInsert r (kf p.2) p.2)

/-- `differenceWithContext` (set.go lines 2112-2135). -/
def differenceWithContext (ctx : Ctx) (s other : GoSet α) : GoSet α × Option GoErr :=
  match diffLoop kf ctx.done other s.heap [] with
  | (_, some e) => (emptySet, some e)
  | (r, none) => ({ heap := r, ctx := .nil }, none)

/-- The method `Difference` (set.go lines 2150-2153). -/
def difference (s other : GoSet α) : GoSet α :=
  (differenceWithContext kf s.ctx s other).1

/-- `symmetricDifferenceWithContext` (set.go lines 2162-2200): the
`Difference` loop over `s` against `other`, then the same loop over `other`
against `s`, accumulating into one result. -/
def symmetricDifferenceWithContext (ctx : Ctx) (s other : GoSet α) :
    GoSet α × Option GoErr :=
  match diffLoop kf ctx.done other s.heap [] with
  | (_, some e) => (emptySet, some e)
  | (r1, none) =>
    match diffLoop kf ctx.done s other.heap r1 with
    | (_, some e) => (emptySet, some e)
    | (r2, none) => ({ heap := r2, ctx := .nil }, none)

/-- The method `SymmetricDifference` (set.go lines 2215-2218). -/
def symmetricDifference (s other : GoSet α) : GoSet α :=
  (symmetricDifferenceWithContext kf s.ctx s other).1

/-- The loop of `mapWithContext` (set.go lines 2227-2249): `select` first,
then `result.Add(fn(v))` (plain `Add` on the fresh result). -/
def mapLoop (d : Bool) (f : α → α) : Heap α → Heap α → Heap α × Option GoErr
  | [], r => (r, none)
  | p :: rest, r =>
    if d then ([], some .canceled)
    else mapLoop d f rest (mapInsert r (kf (f p.2)) (f p.2))

/-- `mapWithContext` (set.go lines 2227-2249). -/
def mapWithContext (ctx : Ctx) (s : GoSet α) (f : α → α) : GoSet α × Option GoErr :=
  match mapLoop kf ctx.done f s.heap [] with
  | (_, some e) => (emptySet, some e)
  | (r, none) => ({ heap := r, ctx := .nil }, none)

/-- The method `Map` (set.go lines 2268-2271). -/
def mapEndo (s : GoSet α) (f : α → α) : GoSet α :=
  (mapWithContext kf s.ctx s f).1

/-- The loop of `copyWithContext` (set.go lines 2322-2337):
`result.addWithContext(ctx, v)` per element, no extra `select`. -/
def copyLoop (ctx : Ctx) : Heap α → Heap α → Heap α × Option GoErr
  | [], r => (r, none)
  | p :: rest, r =>
    match addOneWithContext kf ctx r p.2 with
    | (_, some e) => ([], some e)
    | (r', none) => copyLoop ctx rest r'

/-- `copyWithContext` (set.go lines 2322-2337). -/
def copyWithContext (ctx : Ctx) (s : GoSet α) : GoSet α × Option GoErr :=
  match copyLoop kf ctx s.heap [] with
  | (_, some e) => (emptySet, some e)
  | (r, none) => ({ heap := r, ctx := .nil }, none)

/-- The method `Copy` (set.go lines 2348-2351). -/
def copy (s : GoSet α) : GoSet α :=
  (copyWithContext kf s.ctx s).1

/-- Inner loop of `appendWithContext`: `s.addWithContext(ctx, v)` for every
value of one argument set, returning on the first error (the receiver keeps
whatever was added before the error, exactly as the in-place Go code does). -/
def appendOne (ctx : Ctx) (s : GoSet α) : Heap α → GoSet α × Option GoErr
  | [] => (s, none)
  | p :: rest =>
    match addOneWithContext kf ctx s.heap p.2 with
    | (_, some e) => (s, some e)
    | (h, none) => appendOne ctx { s with heap := h } rest

/-- `appendWithContext` (set.go lines 2355-2374): fold every argument set's
elements into the receiver. -/
def appendWithContext (ctx : Ctx) (s : GoSet α) : List (GoSet α) → GoSet α × Option GoErr
  | [] => (s, none)
  | t :: ts =>
    match appendOne kf ctx s t.heap with
    | (s', some e) => (s', some e)
    | (s', none) => appendWithContext ctx s' ts

/-- The method `Append` (set.go lines 2387-2389). -/
def appendSets (s : GoSet α) (sets : List (GoSet α)) : GoSet α :=
  (appendWithContext kf s.ctx s sets).1

/-- The method `Extend` (set.go lines 2411-2413), an alias of `Append`
taking a slice of sets. -/
def extendSets (s : GoSet α) (sets : List (GoSet α)) : GoSet α :=
  appendSets kf s sets

/-- The element scan of `isSubsetWithContext`: `select` first, then
`if !set.Contains(v) { return false }` (plain `Contains`, so the other
set's own default token governs the membership test). -/
def subsetLoop (d : Bool) (other : GoSet α) : Heap α → Bool × Option GoErr
  | [] => (true, none)
  | p :: rest =>
    if d then (false, some .canceled)
    else if !contains kf other p.2 then (false, none)
    else subsetLoop d other rest

/-- `isSubsetWithContext` (set.go lines 2448-2475).  Note the size
pre-check in the source is `s.Len() >= set.Len()`, rejecting also sets of
equal size. -/
def isSubsetWithContext (ctx : Ctx) (s other : GoSet α) : Bool × Option GoErr :=
  if s.heap.length ≥ other.heap.length then (false, none)
  else subsetLoop kf ctx.done other s.heap

/-- The method `IsSubset` (set.go lines 2490-2493). -/
def isSubset (s other : GoSet α) : Bool :=
  (isSubsetWithContext kf s.ctx s other).1

/-- The element scan of `isSupersetWithContext`:
`s.containsWithContext(ctx, v)` per element of the other set, with the
passed token. -/
def supersetLoop (ctx : Ctx) (s : GoSet α) : Heap α → Bool × Option GoErr
  | [] => (true, none)
  | p :: rest =>
    match containsWithContext kf ctx s p.2 with
    | (_, some e) => (false, some e)
    | (ok, none) => if !ok then (false, none) else supersetLoop ctx s rest

/-- `isSupersetWithContext` (set.go lines 2502-2529), with its strict size
pre-check `s.Len() < set.Len()`. -/
def isSupersetWithContext (ctx : Ctx) (s other : GoSet α) : Bool × Option GoErr :=
  if s.heap.length < other.heap.length then (false, none)
  else supersetLoop kf ctx s other.heap

/-- The method `IsSuperset` (set.go lines 2544-2547). -/
def isSuperset (s other : GoSet α) : Bool :=
  (isSupersetWithContext kf s.ctx s other).1

/-- The loop of `filterWithContext` (set.go lines 2568-2587): no leading
`select`; only elements satisfying the predicate trigger a cancellable
`addWithContext` into the result. -/
def filterLoop (ctx : Ctx) (fn : α → Bool) : Heap α → Heap α → Heap α × Option GoErr
  | [], r => (r, none)
  | p :: rest, r =>
    if fn p.2 then
      match addOneWithContext kf ctx r p.2 with
      | (_, some e) => ([], some e)
      | (r', none) => filterLoop ctx fn rest r'
    else filterLoop ctx fn rest r

/-- `filterWithContext` (set.go lines 2568-2587). -/
def filterWithContext (ctx : Ctx) (s : GoSet α) (fn : α → Bool) :
    GoSet α × Option GoErr :=
  match filterLoop kf ctx fn s.heap [] with
  | (_, some e) => (emptySet, some e)
  | (r, none) => ({ heap := r, ctx := .nil }, none)

/-- The method `Filter` (set.go lines 2599-2602). -/
def filterSet (s : GoSet α) (fn : α → Bool) : GoSet α :=
  (filterWithContext kf s.ctx s fn).1

/-- `NewWithContext` (fn.go lines 137-147): build an empty set carrying the
given token, classify, then insert the initial items through the plain
`Add`, which uses that stored token and discards any error. -/
def NewWithContext (ctx : Ctx) (items : List α) : GoSet α :=
  add kf { heap := [], ctx := ctx } items

/-- `New` (fn.go lines 129-131): `NewWithContext` with a Go `nil` context. -/
def New (items : List α) : GoSet α :=
  NewWithContext kf Ctx.nil items

/-- The loop of the package-level `UnionWithContext` (fn.go lines 274-302):
`result.addWithContext(ctx, v)` for every element of one input heap. -/
def unionFnLoop (ctx : Ctx) : Heap α → Heap α → Heap α × Option GoErr
  | [], r => (r, none)
  | p :: rest, r =>
    match addOneWithContext kf ctx r p.2 with
    | (_, some e) => ([], some e)
    | (r', none) => unionFnLoop ctx rest r'

/-- Folds the heaps of the variadic `others` into the result. -/
def unionFnOthers (ctx : Ctx) : List (GoSet α) → Heap α → Heap α × Option GoErr
  | [], r => (r, none)
  | t :: ts, r =>
    match unionFnLoop kf ctx t.heap r with
    | (_, some e) => ([], some e)
    | (r', none) => unionFnOthers ctx ts r'

/-- The package-level `UnionWithContext` (fn.go lines 274-302). -/
def UnionWithContextF (ctx : Ctx) (s : GoSet α) (others : List (GoSet α)) :
    GoSet α × Option GoErr :=
  match unionFnLoop kf ctx s.heap [] with
  | (_, some e) => (emptySet, some e)
  | (r, none) =>
    match unionFnOthers kf ctx others r with
    | (_, some e) => (emptySet, some e)
    | (r', none) => ({ heap := r', ctx := .nil }, none)

/-- The package-level plain `Union` (fn.go lines 316-319): it passes a Go
`nil` context, not any set's stored default token. -/
def UnionF (s : GoSet α) (others : List (GoSet α)) : GoSet α :=
  (UnionWithContextF kf Ctx.nil s others).1

/-- The loop of the package-level `ReduceWithContext` (fn.go lines 580-602):
`acc = fn(acc, v)` first, then the `select`; on a done token it returns the
reflected zero value of `R`, not the partial accumulator. -/
def reduceFnLoop (d : Bool) (f : β → α → β) (zeroR : β) : Heap α → β → β × Option GoErr
  | [], acc => (acc, none)
  | p :: rest, acc =>
    let acc' := f acc p.2
    if d then (zeroR, some .canceled)
    else reduceFnLoop d f zeroR rest acc'

/-- The package-level `ReduceWithContext` (fn.go lines 580-602); `zeroR` is
the Go zero value of the result type `R`. -/
def ReduceWithContextF (ctx : Ctx) (s : GoSet α) (f : β → α → β) (zeroR : β) :
    β × Option GoErr :=
  reduceFnLoop ctx.done f zeroR s.heap zeroR

/-- The package-level plain `Reduce` (fn.go lines 621-624): passes a Go
`nil` context. -/
def ReduceF (s : GoSet α) (f : β → α → β) (zeroR : β) : β :=
  (ReduceWithContextF Ctx.nil s f zeroR).1

end Ops

/-- Well-formedness of a set's backing map: every entry is stored under the
key the hasher assigns to its value.  Every set the package itself builds
satisfies this, because insertion always uses `toHash` of the inserted
value. -/
def WFHeap {α : Type} (kf : α → String) (h : Heap α) : Prop :=
  ∀ p ∈ h, p.1 = kf p.2

/-- Key uniqueness, the Go-map invariant. -/
def NodupKeys {α : Type} (h : Heap α) : Prop :=
  (h.map Prod.fst).Nodup

/-!
## The structural hasher (`src/tools.go`, `toHash`)

The current hasher streams a textual rendering of the value into an
FNV-1a 64 digest (`hash/fnv`, as the package's own tests do with
`fnv.New64a()`):

* struct: each field value in declaration order, names never written;
* array/slice: each element in order;
* map: for each key in the runtime's iteration order, the key then the
  value — the iteration order of a Go map is unspecified;
* pointer/interface: `"nil"` for nil, otherwise the dereferenced value;
* func: `"func:nil"` for nil, otherwise the type signature plus `" Value"`;
* every other (leaf) kind: `fmt.Sprintf("%v", v)`.

`GoVal` is the reflected view of one traversal of a value: the entry list
of a `mapv` node records the iteration order that one invocation happened
to observe, so two invocations of the hasher on the same in-memory value
are two `GoVal`s related by `SameVal` below.
-/

/-- The FNV-1a 64 offset basis (`hash/fnv`). -/
def fnvOffset : Nat := 14695981039346656037

/-- The FNV-1a 64 prime (`hash/fnv`). -/
def fnvPrime : Nat := 1099511628211

/-- One byte of an FNV-1a 64 digest: xor, then multiply modulo 2^64. -/
def fnv64aStep (h b : Nat) : Nat := ((h ^^^ b) * fnvPrime) % (2 ^ 64)

/-- The FNV-1a 64 digest of a byte sequence. -/
def fnv64a (bytes : List Nat) : Nat := bytes.foldl fnv64aStep fnvOffset

/-- The bytes `hash.Write` receives for one written string (code points;
identical to the UTF-8 bytes for the ASCII data the renderer produces). -/
def strBytes (s : String) : List Nat := s.data.map Char.toNat

/-- The byte stream of a sequence of `hash.Write` calls. -/
def writesBytes (ws : List String) : List Nat := (ws.map strBytes).flatten

/-- A reflected Go value as one traversal of the hasher observes it. -/
inductive GoVal where
  /-- A leaf kind, carrying its `fmt.Sprintf("%v", v)` rendering. -/
  | leaf (repr : String)
  /-- A struct: field names and field values in declaration order. -/
  | strct (fields : List (String × GoVal))
  /-- An array or slice. -/
  | arr (elems : List GoVal)
  /-- A map: key/value entries in the iteration order this traversal saw. -/
  | mapv (entries : List (GoVal × GoVal))
  /-- A pointer or interface, `none` for nil. -/
  | ptr (inner : Option GoVal)
  /-- A function value, `none` for nil, otherwise its type signature. -/
  | fnval (sig : Option String)

mutual

/-- The sequence of `hash.Write` calls `toHash` (tools.go lines 18-74)
performs on a value, in order. -/
def toHashStream : GoVal → List String
  | .leaf r => [r]
  | .strct fields => fieldsStream fields
  | .arr elems => elemsStream elems
  | .mapv entries => entriesStream entries
  | .ptr none => ["nil"]
  | .ptr (some v) => toHashStream v
  | .fnval none => ["func:nil"]
  | .fnval (some sig) => [sig ++ " Value"]

/-- Struct fields: only the field values are written (tools.go lines
33-39). -/
def fieldsStream : List (String × GoVal) → List String
  | [] => []
  | p :: ps => toHashStream p.2 ++ fieldsStream ps

/-- Array and slice elements in sequence order (tools.go lines 40-46). -/
def elemsStream : List GoVal → List String
  | [] => []
  | v :: vs => toHashStream v ++ elemsStream vs

/-- Map entries: key then value, per entry (tools.go lines 47-57). -/
def entriesStream : List (GoVal × GoVal) → List String
  | [] => []
  | e :: es => toHashStream e.1 ++ toHashStream e.2 ++ entriesStream es

end

/-- The hash key of a value: the FNV-1a 64 digest of everything `toHash`
wrote, i.e. `hash.Sum64()` after the traversal. -/
def toHashKey (v : GoVal) : Nat := fnv64a (writesBytes (toHashStream v))

mutual

/-- `true` when every map node of the value has at most one entry, so that
the unspecified map iteration order cannot influence the traversal. -/
def noMultiMap : GoVal → Bool
  | .leaf _ => true
  | .strct fields => noMultiMapFields fields
  | .arr elems => noMultiMapElems elems
  | .mapv entries => entries.length ≤ 1 && noMultiMapEntries entries
  | .ptr none => true
  | .ptr (some v) => noMultiMap v
  | .fnval _ => true

/-- `noMultiMap` over struct fields. -/
def noMultiMapFields : List (String × GoVal) → Bool
  | [] => true
  | p :: ps => noMultiMap p.2 && noMultiMapFields ps

/-- `noMultiMap` over sequence elements. -/
def noMultiMapElems : List GoVal → Bool
  | [] => true
  | v :: vs => noMultiMap v && noMultiMapElems vs

/-- `noMultiMap` over map entries. -/
def noMultiMapEntries : List (GoVal × GoVal) → Bool
  | [] => true
  | e :: es => noMultiMap e.1 && noMultiMap e.2 && noMultiMapEntries es

end

/-- Two traversals of the same in-memory value.  The runtime fixes
everything about the traversal except the iteration order of each map
node, so two invocations of the hasher on one value observe `GoVal`s
related by congruence plus permutation of map entry lists. -/
inductive SameVal : GoVal → GoVal → Prop where
  /-- The same traversal. -/
  | refl (v : GoVal) : SameVal v v
  /-- A map node observed in two different iteration orders. -/
  | mapPerm {es fs : List (GoVal × GoVal)} :
      es.Perm fs → SameVal (.mapv es) (.mapv fs)
  /-- Congruence through a struct field. -/
  | strctCons {n : String} {v w : GoVal} {fs gs : List (String × GoVal)} :
      SameVal v w → SameVal (.strct fs) (.strct gs) →
      SameVal (.strct ((n, v) :: fs)) (.strct ((n, w) :: gs))
  /-- Congruence through a sequence element. -/
  | arrCons {v w : GoVal} {xs ys : List GoVal} :
      SameVal v w → SameVal (.arr xs) (.arr ys) →
      SameVal (.arr (v :: xs)) (.arr (w :: ys))
  /-- Congruence through a map entry. -/
  | mapCons {k v k2 v2 : GoVal} {es fs : List (GoVal × GoVal)} :
      SameVal k k2 → SameVal v v2 → SameVal (.mapv es) (.mapv fs) →
      SameVal (.mapv ((k, v) :: es)) (.mapv ((k2, v2) :: fs))
  /-- Congruence through a non-nil pointer. -/
  | ptrSome {v w : GoVal} : SameVal v w → SameVal (.ptr (some v)) (.ptr (some w))
  /-- Reordering composes: permute map entries, then reorder within. -/
  | trans {u v w : GoVal} : SameVal u v → SameVal v w → SameVal u w

/-- Whether a reflected value is a map node. -/
def isMapNode : GoVal → Bool
  | .mapv _ => true
  | _ => false

/-!
## Pointer-level view for the frame properties

Each Go `*Set[T]` is a slot of a `World`.  A combinator
(`result := New[T]()` ... `return result`) allocates a fresh slot and
writes only there; `Append`/`Extend` write through the receiver pointer.
The world layer records exactly which slots each operation's statements
write to.
-/

/-- All live `*Set[T]` instances; a pointer is an index. -/
abbrev World (α : Type) := List (GoSet α)

/-- `New[T]()` seen from the heap: append a fresh set, return its pointer. -/
def allocSet {α : Type} (w : World α) (s : GoSet α) : World α × Nat :=
  (w ++ [s], w.length)

/-- Dereference a pointer. -/
def getSet {α : Type} (w : World α) (i : Nat) : GoSet α :=
  w.getD i emptySet

/-- A write through a pointer. -/
def putSet {α : Type} (w : World α) (i : Nat) (s : GoSet α) : World α :=
  w.set i s

section WorldOps

variable {α : Type} (kf : α → String)

/-- The method `Union` on pointers: compute from the two dereferenced
inputs, write only to a freshly allocated result slot. -/
def unionW (w : World α) (i j : Nat) : World α × Nat :=
  allocSet w (union kf (getSet w i) (getSet w j))

/-- The method `Intersection` on pointers. -/
def intersectionW (w : World α) (i j : Nat) : World α × Nat :=
  allocSet w (intersection kf (getSet w i) (getSet w j))

/-- The method `Difference` on pointers. -/
def differenceW (w : World α) (i j : Nat) : World α × Nat :=
  allocSet w (difference kf (getSet w i) (getSet w j))

/-- The method `SymmetricDifference` on pointers. -/
def symmetricDifferenceW (w : World α) (i j : Nat) : World α × Nat :=
  allocSet w (symmetricDifference kf (getSet w i) (getSet w j))

/-- The method `Map` on pointers. -/
def mapW (w : World α) (i : Nat) (f : α → α) : World α × Nat :=
  allocSet w (mapEndo kf (getSet w i) f)

/-- The method `Filter` on pointers. -/
def filterW (w : World α) (i : Nat) (fn : α → Bool) : World α × Nat :=
  allocSet w (filterSet kf (getSet w i) fn)

/-- The method `Copy` on pointers. -/
def copyW (w : World α) (i : Nat) : World α × Nat :=
  allocSet w (copy kf (getSet w i))

/-- The method `Append` on pointers: the only operation writing through the
receiver; the argument set is only read. -/
def appendW (w : World α) (i j : Nat) : World α :=
  putSet w i (appendSets kf (getSet w i) [getSet w j])

/-- The method `Extend` on pointers, an alias of `Append`. -/
def extendW (w : World α) (i j : Nat) : World α :=
  putSet w i (extendSets kf (getSet w i) [getSet w j])

end WorldOps

/-!
## Serialization adapter

The repository snapshot contains the JSON round-trip tests
(`TestSetJSON`, `TestSetJSONWithStruct` in src/set_test.go) and benchmark
callers, but not the file implementing `MarshalJSON`/`UnmarshalJSON`
itself, so the adapter is modelled from the spec at the element level (the
JSON text mechanics are out of the spec's scope beyond the
array-of-elements wire form).
-/

/-- Modelled from the spec: the missing `MarshalJSON` implementation
"producing a textual array of the set's elements in unspecified order".
The wire form is the element array; the model keeps the elements
themselves. -/
def marshalJSON {α : Type} (s : GoSet α) : List α :=
  heapValues s.heap

/-- Modelled from the spec: the missing `UnmarshalJSON` implementation
"replacing the set's contents with the decoded array's elements
(duplicates in the input collapse via normal insertion semantics)". -/
def unmarshalJSON {α : Type} (kf : α → String) (s : GoSet α) (data : List α) :
    GoSet α :=
  { heap := addAll kf [] data, ctx := s.ctx }

/-- The `fmt.Sprintf("%v", n)` rendering of a Go `int`: the simple-path
key function for concrete `int` sets. -/
def intKey : Int → String := fun n => toString n

/-! ## Lemmas about the heap primitives -/

section HeapLemmas

variable {α : Type} {kf : α → String}

theorem containsKey_mapInsert (h : Heap α) (k k' : String) (v : α) :
    containsKey (mapInsert h k v) k' = ((k == k') || containsKey h k') := by
  induction h with
  | nil => simp [mapInsert, containsKey]
  | cons p rest ih =>
    by_cases hk : p.1 = k
    · simp [mapInsert, hk, containsKey]
    · simp only [mapInsert, if_neg hk, containsKey, List.any_cons] at *
      rw [ih]
      cases hpk : (p.1 == k') <;> simp_all [Bool.or_comm, Bool.or_left_comm]

theorem length_mapInsert_of_not_contains {h : Heap α} {k : String} (v : α)
    (hk : containsKey h k = false) :
    (mapInsert h k v).length = h.length + 1 := by
  induction h with
  | nil => simp [mapInsert]
  | cons p rest ih =>
    simp only [containsKey, List.any_cons, Bool.or_eq_false_iff] at hk
    have hne : ¬ p.1 = k := by
      intro he; simp [he] at hk
    simp only [mapInsert, if_neg hne, List.length_cons]
    rw [ih hk.2]

theorem containsKey_addAll (l : List α) (h : Heap α) (k : String) :
    containsKey (addAll kf h l) k
      = (containsKey h k || l.any (fun v => kf v == k)) := by
  induction l generalizing h with
  | nil => simp [addAll]
  | cons v vs ih =>
    simp only [addAll, List.any_cons]
    rw [ih, containsKey_mapInsert]
    cases hv : (kf v == k) <;> simp [Bool.or_comm, Bool.or_left_comm]

theorem length_addAll_of_nodup (l : List α) (h : Heap α)
    (hnd : (l.map kf).Nodup) (hdisj : ∀ v ∈ l, containsKey h (kf v) = false) :
    (addAll kf h l).length = h.length + l.length := by
  induction l generalizing h with
  | nil => simp [addAll]
  | cons v vs ih =>
    simp only [List.map_cons, List.nodup_cons] at hnd
    have hdisj' : ∀ u ∈ vs, containsKey (mapInsert h (kf v) v) (kf u) = false := by
      intro u hu
      rw [containsKey_mapInsert]
      have h1 : (kf v == kf u) = false := by
        simp only [beq_eq_false_iff_ne, ne_eq]
        intro he
        exact hnd.1 (he ▸ List.mem_map_of_mem kf hu)
      rw [h1, hdisj u (List.mem_cons_of_mem _ hu)]
      rfl
    simp only [addAll, List.length_cons]
    rw [ih (mapInsert h (kf v) v) hnd.2 hdisj',
      length_mapInsert_of_not_contains v (hdisj v (by simp))]
    omega

theorem WFHeap_mapInsert {h : Heap α} (hwf : WFHeap kf h) (v : α) :
    WFHeap kf (mapInsert h (kf v) v) := by
  induction h with
  | nil => intro p hp; simp only [mapInsert, List.mem_singleton] at hp; simp [hp]
  | cons q rest ih =>
    have hq := hwf q (by simp)
    have hrest : WFHeap kf rest := fun p hp => hwf p (List.mem_cons_of_mem _ hp)
    intro p hp
    by_cases hk : q.1 = kf v
    · simp only [mapInsert, if_pos hk, List.mem_cons] at hp
      rcases hp with hp | hp
      · simp [hp]
      · exact hwf p (List.mem_cons_of_mem _ hp)
    · simp only [mapInsert, if_neg hk, List.mem_cons] at hp
      rcases hp with hp | hp
      · exact hp ▸ hq
      · exact ih hrest p hp

theorem WFHeap_addAll {h : Heap α} (hwf : WFHeap kf h) (l : List α) :
    WFHeap kf (addAll kf h l) := by
  induction l generalizing h with
  | nil => exact hwf
  | cons v vs ih => exact ih (WFHeap_mapInsert hwf v)

theorem WFHeap_nil : WFHeap kf ([] : Heap α) := by
  intro p hp
  exact absurd hp (List.not_mem_nil p)

theorem WFHeap_diffLoop (other : GoSet α) (l : Heap α) {r : Heap α}
    (hr : WFHeap kf r) : WFHeap kf (diffLoop kf false other l r).1 := by
  induction l generalizing r with
  | nil => exact hr
  | cons p rest ih =>
    simp only [diffLoop, Bool.false_eq_true, if_false]
    cases hx : contains kf other p.2
    · simp only [Bool.false_eq_true, if_false]
      exact ih (WFHeap_mapInsert hr p.2)
    · simp only [if_true]
      exact ih hr

/-- On a well-formed heap, key lookup coincides with scanning the stored
values' hashes. -/
theorem containsKey_eq_any_of_WF {h : Heap α} (hwf : WFHeap kf h) (k : String) :
    containsKey h k = h.any (fun p => kf p.2 == k) := by
  induction h with
  | nil => rfl
  | cons p rest ih =>
    have hp := hwf p (by simp)
    have hrest : WFHeap kf rest := fun q hq => hwf q (List.mem_cons_of_mem _ hq)
    simp only [containsKey, List.any_cons] at *
    rw [← hp, ih hrest]

/-- Scans over a heap in which a per-element flag depends only on the
element's hash key can pull the flag out at the matching key. -/
theorem any_key_flag (h : Heap α) (g : String → Bool) (k : String) :
    h.any (fun p => g (kf p.2) && (kf p.2 == k))
      = (g k && h.any (fun p => kf p.2 == k)) := by
  induction h with
  | nil => simp
  | cons p rest ih =>
    simp only [List.any_cons]
    rw [ih]
    cases hk : (kf p.2 == k)
    · simp
    · have : kf p.2 = k := by simpa using hk
      rw [this]
      cases g k <;> simp

/-! ## Lemmas about the operation loops on a token that is not done -/

theorem elemsLoop_not_done (l : Heap α) (acc : List α) :
    elemsLoop false l acc = (acc ++ heapValues l, none) := by
  induction l generalizing acc with
  | nil => simp [elemsLoop, heapValues]
  | cons p rest ih => simp [elemsLoop, ih, heapValues]

theorem elemsLoop_done {l : Heap α} (hl : l ≠ []) (acc : List α) :
    elemsLoop true l acc = ([], some GoErr.canceled) := by
  cases l with
  | nil => exact absurd rfl hl
  | cons p rest => rfl

theorem elementsWithContext_not_done {s : GoSet α} {ctx : Ctx}
    (hc : ctx.done = false) :
    elementsWithContext ctx s = (heapValues s.heap, none) := by
  rw [elementsWithContext, hc, elemsLoop_not_done]
  rfl

theorem addWithContext_not_done {ctx : Ctx} (hc : ctx.done = false)
    (s : GoSet α) (items : List α) :
    addWithContext kf ctx s items
      = ({ s with heap := addAll kf s.heap items }, none) := by
  induction items generalizing s with
  | nil => simp [addWithContext, addAll]
  | cons v vs ih => simp [addWithContext, addOneWithContext, hc, ih, addAll]

theorem reduceLoop_not_done (f : α → α → α) (l : Heap α) (acc : α) :
    reduceLoop false f l acc = (l.foldl (fun a p => f a p.2) acc, none) := by
  induction l generalizing acc with
  | nil => rfl
  | cons p rest ih => simp [reduceLoop, ih]

theorem diffLoop_not_done (other : GoSet α) (l : Heap α) (r : Heap α) :
    (diffLoop kf false other l r).2 = none ∧
      ∀ k, containsKey (diffLoop kf false other l r).1 k
        = (containsKey r k
            || l.any (fun p => !contains kf other p.2 && (kf p.2 == k))) := by
  induction l generalizing r with
  | nil => simp [diffLoop]
  | cons p rest ih =>
    simp only [diffLoop, Bool.false_eq_true, if_false, List.any_cons]
    refine ⟨(ih _).1, fun k => ?_⟩
    rw [(ih _).2 k]
    cases hx : contains kf other p.2
    · simp only [Bool.not_false, Bool.true_and, if_neg Bool.false_ne_true]
      rw [containsKey_mapInsert]
      cases (kf p.2 == k) <;> simp [Bool.or_comm, Bool.or_left_comm]
    · simp

theorem unionFnLoop_not_done {ctx : Ctx} (hc : ctx.done = false)
    (l : Heap α) (r : Heap α) :
    (unionFnLoop kf ctx l r).2 = none ∧
      ∀ k, containsKey (unionFnLoop kf ctx l r).1 k
        = (containsKey r k || l.any (fun p => kf p.2 == k)) := by
  induction l generalizing r with
  | nil => simp [unionFnLoop]
  | cons p rest ih =>
    simp only [unionFnLoop, addOneWithContext, hc, Bool.false_eq_true, if_false,
      List.any_cons]
    refine ⟨(ih _).1, fun k => ?_⟩
    rw [(ih _).2 k, containsKey_mapInsert]
    cases (kf p.2 == k) <;> simp [Bool.or_comm, Bool.or_left_comm]

theorem contains_not_done {s : GoSet α} (hc : s.ctx.done = false) (x : α) :
    contains kf s x = containsKey s.heap (kf x) := by
  simp [contains, containsWithContext, hc]

theorem containsKey_nil (k : String) : containsKey ([] : Heap α) k = false := rfl

theorem heapValues_any (h : Heap α) (p : α → Bool) :
    (heapValues h).any p = h.any (fun q => p q.2) := by
  induction h with
  | nil => rfl
  | cons q rest ih =>
    simp only [heapValues, List.map_cons, List.any_cons] at ih ⊢
    rw [ih]

theorem sortPasses_nil (fns : List (α → α → Bool)) :
    fns.foldl (fun acc fn => sortSlice (fun a b => fn a.2 b.2) acc)
      ([] : Heap α) = [] := by
  induction fns with
  | nil => rfl
  | cons fn fns ih => simpa [sortSlice] using ih

/-- On an already-cancelled token the `Filter` loop can only ever produce
an empty accumulator: every attempted insertion aborts. -/
theorem filterLoop_cancelled (fn : α → Bool) (l : Heap α) :
    filterLoop kf Ctx.cancelled fn l [] = ([], none)
      ∨ filterLoop kf Ctx.cancelled fn l [] = ([], some GoErr.canceled) := by
  induction l with
  | nil => exact Or.inl rfl
  | cons p rest ih =>
    by_cases hp : fn p.2 = true
    · right
      simp [filterLoop, hp, addOneWithContext, Ctx.done]
    · simp only [filterLoop]
      rw [if_neg hp]
      exact ih

theorem sortedWithContext_nil_heap {s : GoSet α} (ctx : Ctx) (hh : s.heap = [])
    (fns : List (α → α → Bool)) :
    sortedWithContext ctx s fns = ([], none) := by
  simp only [sortedWithContext, hh, sortedGather]
  split
  · simp [sortSlice, sortedCopy]
  · rw [sortPasses_nil]
    simp [sortedCopy]

theorem unionFnOthers_not_done {ctx : Ctx} (hc : ctx.done = false)
    (ts : List (GoSet α)) (r : Heap α) :
    (unionFnOthers kf ctx ts r).2 = none ∧
      ∀ k, containsKey (unionFnOthers kf ctx ts r).1 k
        = (containsKey r k
            || ts.any (fun o => o.heap.any (fun q => kf q.2 == k))) := by
  induction ts generalizing r with
  | nil => simp [unionFnOthers]
  | cons t ts ih =>
    obtain ⟨h2, hck⟩ := @unionFnLoop_not_done _ kf _ hc t.heap r
    rcases hres : unionFnLoop kf ctx t.heap r with ⟨r1, e1⟩
    rw [hres] at h2 hck
    simp only at h2
    subst h2
    simp only [unionFnOthers, hres, List.any_cons]
    refine ⟨(ih _).1, fun k => ?_⟩
    rw [(ih _).2 k]
    simp only at hck
    rw [hck k]
    cases containsKey r k <;> simp [Bool.or_comm, Bool.or_left_comm, Bool.or_assoc]

end HeapLemmas

/-! ## Lemmas about the structural hasher -/

theorem noMultiMapFields_eq_all (fs : List (String × GoVal)) :
    noMultiMapFields fs = fs.all (fun p => noMultiMap p.2) := by
  induction fs with
  | nil => rfl
  | cons p ps ih => simp [noMultiMapFields, ih]

theorem noMultiMapElems_eq_all (vs : List GoVal) :
    noMultiMapElems vs = vs.all noMultiMap := by
  induction vs with
  | nil => rfl
  | cons v vs ih => simp [noMultiMapElems, ih]

theorem noMultiMapEntries_eq_all (es : List (GoVal × GoVal)) :
    noMultiMapEntries es = es.all (fun e => noMultiMap e.1 && noMultiMap e.2) := by
  induction es with
  | nil => rfl
  | cons e es ih => simp [noMultiMapEntries, ih, Bool.and_assoc]

/-- A traversal reordering relates values of the same kind. -/
theorem isMapNode_of_sameVal {v w : GoVal} (h : SameVal v w) :
    isMapNode v = isMapNode w := by
  induction h with
  | refl v => rfl
  | mapPerm hperm => rfl
  | strctCons h1 h2 ih1 ih2 => rfl
  | arrCons h1 h2 ih1 ih2 => rfl
  | mapCons hk hv hes ihk ihv ihes => rfl
  | ptrSome h1 ih1 => rfl
  | trans h1 h2 ih1 ih2 => exact ih1.trans ih2

/-- A traversal reordering preserves the number of entries of a map node. -/
theorem sameVal_mapv_length {v w : GoVal} (h : SameVal v w) :
    ∀ es fs, v = .mapv es → w = .mapv fs → es.length = fs.length := by
  induction h with
  | refl v =>
    intro es fs h1 h2
    rw [h1] at h2
    cases h2
    rfl
  | mapPerm hperm =>
    intro es fs h1 h2
    cases h1
    cases h2
    exact hperm.length_eq
  | strctCons h1 h2 ih1 ih2 => intro es fs hveq; simp at hveq
  | arrCons h1 h2 ih1 ih2 => intro es fs hveq; simp at hveq
  | mapCons hk hv hes ihk ihv ihes =>
    intro es fs h1 h2
    cases h1
    cases h2
    have hlen := ihes _ _ rfl rfl
    simp [hlen]
  | ptrSome h1 ih1 => intro es fs hveq; simp at hveq
  | trans h1 h2 ih1 ih2 =>
    intro es fs hu hw
    have hshape := isMapNode_of_sameVal h1
    rw [hu] at hshape
    rename_i u v' w'
    cases v' with
    | mapv ms => exact (ih1 es ms hu rfl).trans (ih2 ms fs rfl hw)
    | leaf r => simp [isMapNode] at hshape
    | strct fields => simp [isMapNode] at hshape
    | arr elems => simp [isMapNode] at hshape
    | ptr inner => simp [isMapNode] at hshape
    | fnval sig => simp [isMapNode] at hshape

/-- A traversal reordering cannot introduce a multi-entry map. -/
theorem noMultiMap_of_sameVal {v w : GoVal} (h : SameVal v w) :
    noMultiMap v = true → noMultiMap w = true := by
  induction h with
  | refl v => exact id
  | mapPerm hperm =>
    intro hv
    simp only [noMultiMap, Bool.and_eq_true, decide_eq_true_eq,
      noMultiMapEntries_eq_all, List.all_eq_true] at hv ⊢
    exact ⟨hperm.length_eq ▸ hv.1, fun e he => hv.2 e (hperm.mem_iff.mpr he)⟩
  | strctCons h1 h2 ih1 ih2 =>
    intro hv
    simp only [noMultiMap, noMultiMapFields, Bool.and_eq_true] at hv ⊢
    exact ⟨ih1 hv.1, ih2 hv.2⟩
  | arrCons h1 h2 ih1 ih2 =>
    intro hv
    simp only [noMultiMap, noMultiMapElems, Bool.and_eq_true] at hv ⊢
    exact ⟨ih1 hv.1, ih2 hv.2⟩
  | mapCons hk hv' hes ihk ihv ihes =>
    intro hv
    simp only [noMultiMap, noMultiMapEntries, Bool.and_eq_true,
      decide_eq_true_eq, List.length_cons] at hv ⊢
    rename_i es fs
    obtain ⟨hlen, ⟨hk1, hv1⟩, hrest⟩ := hv
    have hes_nil : es = [] := List.eq_nil_of_length_eq_zero (by omega)
    have hfs_nil : fs = [] := by
      have hlf := sameVal_mapv_length hes es fs rfl rfl
      rw [hes_nil] at hlf
      exact List.eq_nil_of_length_eq_zero hlf.symm
    subst hes_nil
    subst hfs_nil
    exact ⟨by simp, ⟨ihk hk1, ihv hv1⟩, by simp [noMultiMapEntries]⟩
  | ptrSome h1 ih1 =>
    intro hv
    simp only [noMultiMap] at hv ⊢
    exact ih1 hv
  | trans h1 h2 ih1 ih2 => exact fun hv => ih2 (ih1 hv)

/-- Core of the hash determinism analysis: on a value whose maps all have
at most one entry, any reordering of the traversal leaves the written
stream unchanged. -/
theorem toHashStream_eq_of_sameVal {v w : GoVal} (h : SameVal v w) :
    noMultiMap v = true → toHashStream v = toHashStream w := by
  induction h with
  | refl v => exact fun _ => rfl
  | mapPerm hperm =>
    intro hv
    simp only [noMultiMap, Bool.and_eq_true, decide_eq_true_eq] at hv
    rename_i es fs
    match es, hv.1 with
    | [], _ => rw [hperm.symm.eq_nil]
    | [e], _ =>
      have : [e] = fs := List.singleton_perm.mp hperm
      rw [← this]
  | strctCons h1 h2 ih1 ih2 =>
    intro hv
    simp only [noMultiMap, noMultiMapFields, Bool.and_eq_true] at hv
    simp only [toHashStream, fieldsStream]
    have e2 := ih2 (by simp [noMultiMap, hv.2])
    simp only [toHashStream] at e2
    rw [ih1 hv.1, e2]
  | arrCons h1 h2 ih1 ih2 =>
    intro hv
    simp only [noMultiMap, noMultiMapElems, Bool.and_eq_true] at hv
    simp only [toHashStream, elemsStream]
    have e2 := ih2 (by simp [noMultiMap, hv.2])
    simp only [toHashStream] at e2
    rw [ih1 hv.1, e2]
  | mapCons hk hv' hes ihk ihv ihes =>
    intro hv
    simp only [noMultiMap, noMultiMapEntries, Bool.and_eq_true,
      decide_eq_true_eq, List.length_cons] at hv
    obtain ⟨hlen, ⟨hk1, hv1⟩, hrest⟩ := hv
    simp only [toHashStream, entriesStream]
    have e3 := ihes (by
      simp only [noMultiMap, Bool.and_eq_true, decide_eq_true_eq]
      exact ⟨by omega, hrest⟩)
    simp only [toHashStream] at e3
    rw [ihk hk1, ihv hv1, e3]
  | ptrSome h1 ih1 =>
    intro hv
    simp only [noMultiMap] at hv
    simp only [toHashStream]
    exact ih1 hv
  | trans h1 h2 ih1 ih2 =>
    intro hv
    exact (ih1 hv).trans (ih2 (noMultiMap_of_sameVal h1 hv))

/-- Struct traversal writes only the field values, so the stream factors
through the value list. -/
theorem fieldsStream_eq_of_snd_eq {fs gs : List (String × GoVal)}
    (h : fs.map Prod.snd = gs.map Prod.snd) :
    fieldsStream fs = fieldsStream gs := by
  induction fs generalizing gs with
  | nil =>
    cases gs with
    | nil => rfl
    | cons q qs => simp at h
  | cons p ps ih =>
    cases gs with
    | nil => simp at h
    | cons q qs =>
      simp only [List.map_cons, List.cons.injEq] at h
      simp only [fieldsStream, h.1, ih h.2]

/-!
## Validation of the digest model against the repository's own tests

`TestToHashMethodSimple`, `TestToHashMethodComplex` and `TestToStr`
(src/set_test.go) pin exact `fnv.New64a().Sum64()` values; the model
reproduces every one of them.
-/

/-- `toHash` of the int `0` (simple path writes `"0"`):
`TestToHashMethodSimple` expects `12638135523509116079`. -/
theorem fnv_vector_int_zero : toHashKey (.leaf "0") = 12638135523509116079 := by
  decide

/-- `toHash` of the int `1`: `TestToHashMethodSimple` expects
`12638134423997487868`. -/
theorem fnv_vector_int_one : toHashKey (.leaf "1") = 12638134423997487868 := by
  decide

/-- A nil pointer hashes the sentinel `"nil"`: `TestToStr` expects
`2397808468787316396`. -/
theorem fnv_vector_nil_ptr : toHashKey (.ptr none) = 2397808468787316396 := by
  decide

/-- A nil func hashes the sentinel `"func:nil"`: `TestToStr` expects
`5584826337234219198`. -/
theorem fnv_vector_nil_func : toHashKey (.fnval none) = 5584826337234219198 := by
  decide

/-- A non-nil `func()` hashes its signature plus `" Value"`: `TestToStr`
expects `852608543138426317`. -/
theorem fnv_vector_func : toHashKey (.fnval (some "func()")) = 852608543138426317 := by
  decide

/-- The struct `complexType{1, "one"}` hashes to the digest of `"1"` then
`"one"` — field names contribute nothing: `TestToHashMethodComplex`
expects `2272318830438166496`. -/
theorem fnv_vector_struct_one :
    toHashKey (.strct [("field1", .leaf "1"), ("field2", .leaf "one")])
      = 2272318830438166496 := by
  decide

/-!
## The claims

The element type of the concrete witnesses is Go `int`, whose simple-path
key is `fmt.Sprintf("%v", n)`, `intKey` below. -/

/-- C1. The claim states `A.IsSubset(B) == B.IsSuperset(A)` for all sets,
in particular when `A` and `B` hold exactly the same elements.  The code
refutes it there: for `A = B = {1}`, `A.IsSubset(B)` is `false` (the
source's size pre-check rejects on `s.Len() >= set.Len()`, hence on equal
sizes) while `B.IsSuperset(A)` is `true` (its pre-check is the strict
`s.Len() < set.Len()`).  This evaluates the embedded code at that failing
input. -/
theorem C1_duality_fails_on_equal_sets :
    isSubset intKey (New intKey [1]) (New intKey [1]) = false
      ∧ isSuperset intKey (New intKey [1]) (New intKey [1]) = true := by
  decide

/-- C2. The claim states the `IsSubset` size pre-check rejects only when
the receiver is strictly larger, so that `A.IsSubset(A)` is `true` for
every `A`, while `New(1,2,3).IsSubset(New(1,2,3,4,5))` is `true` and the
reverse `false`.  The code satisfies the two scenario parts but refutes
reflexivity: the pre-check is `s.Len() >= set.Len()`, so
`New(1).IsSubset(New(1))` evaluates to `false`. -/
theorem C2_subset_precheck_rejects_equal_size :
    isSubset intKey (New intKey [1, 2, 3]) (New intKey [1, 2, 3, 4, 5]) = true
      ∧ isSubset intKey (New intKey [1, 2, 3, 4, 5]) (New intKey [1, 2, 3]) = false
      ∧ isSubset intKey (New intKey [1]) (New intKey [1]) = false := by
  decide

/-- C3 counterexample.  The claim says every explicit-token operation
invoked with an already-signalled token returns a cancellation error; but
each cancellation check sits inside the element loop, so an invocation
with nothing to iterate — here `ElementsWithContext` on an empty set —
succeeds with no error at all. -/
theorem C3_counterexample_empty_set_no_error :
    elementsWithContext Ctx.cancelled (emptySet : GoSet Int)
      = ([], (none : Option GoErr)) := by
  decide

/-- C3 amended.  An explicit-token operation given an already-cancelled
token returns a cancellation error together with an empty or zero result —
never a partial one — whenever it has at least one item to iterate (a
non-empty receiver for the scans and combinators, a non-empty item list
for `Add`/`Delete`); an invocation with nothing to iterate trivially
succeeds with its empty result and no error.  Mutating operations
(`Add`/`Delete`) leave the receiver unchanged. -/
theorem C3_cancelled_token_empty_result_and_error
    (α β : Type) (kf : α → String) (s other : GoSet α) (items : List α)
    (fns : List (α → α → Bool)) (p : α → Bool) (f : α → α → α) (zeroT : α)
    (g : β → α → β) (zeroR : β)
    (hs : s.heap ≠ []) (hi : items ≠ []) :
    addWithContext kf Ctx.cancelled s items = (s, some GoErr.canceled)
    ∧ deleteWithContext kf Ctx.cancelled s items = (s, some GoErr.canceled)
    ∧ elementsWithContext Ctx.cancelled s = ([], some GoErr.canceled)
    ∧ sortedWithContext Ctx.cancelled s fns = ([], some GoErr.canceled)
    ∧ filteredWithContext Ctx.cancelled s p = ([], some GoErr.canceled)
    ∧ reduceWithContext Ctx.cancelled s f zeroT = (zeroT, some GoErr.canceled)
    ∧ ReduceWithContextF Ctx.cancelled s g zeroR = (zeroR, some GoErr.canceled)
    ∧ unionWithContext kf Ctx.cancelled s other = (emptySet, some GoErr.canceled)
    ∧ intersectionWithContext kf Ctx.cancelled s other
        = (emptySet, some GoErr.canceled)
    ∧ differenceWithContext kf Ctx.cancelled s other
        = (emptySet, some GoErr.canceled)
    ∧ symmetricDifferenceWithContext kf Ctx.cancelled s other
        = (emptySet, some GoErr.canceled) := by
  obtain ⟨q, rest, hq⟩ := List.exists_cons_of_ne_nil hs
  obtain ⟨v, vs, hv⟩ := List.exists_cons_of_ne_nil hi
  refine ⟨?_, ?_, ?_, ?_, ?_, ?_, ?_, ?_, ?_, ?_, ?_⟩
  · simp [hv, addWithContext, addOneWithContext, Ctx.done]
  · simp [hv, deleteWithContext, Ctx.done]
  · simp [elementsWithContext, hq, elemsLoop, Ctx.done]
  · simp [sortedWithContext, sortedGather, hq, Ctx.done]
  · simp [filteredWithContext, filteredLoop, hq, Ctx.done]
  · simp [reduceWithContext, reduceLoop, hq, Ctx.done]
  · simp [ReduceWithContextF, reduceFnLoop, hq, Ctx.done]
  · simp [unionWithContext, elementsWithContext, hq, elemsLoop, Ctx.done]
  · simp [intersectionWithContext, interLoop, hq, containsWithContext, Ctx.done]
  · simp [differenceWithContext, diffLoop, hq, Ctx.done]
  · simp [symmetricDifferenceWithContext, diffLoop, hq, Ctx.done]

/-- C3 witness: the amended theorem applied at the set `{1}`, the item
list `[2]`, and an already-cancelled token. -/
theorem C3_cancelled_token_empty_result_and_error_witness :
    (New intKey [1]).heap ≠ [] ∧ ([2] : List Int) ≠ []
    ∧ addWithContext intKey Ctx.cancelled (New intKey [1]) [2]
        = (New intKey [1], some GoErr.canceled) :=
  ⟨by decide, by decide,
    (C3_cancelled_token_empty_result_and_error Int Int intKey (New intKey [1])
      emptySet [2] [] (fun _ => true) (fun a b => a + b) 0 (fun a b => a + b) 0
      (by decide) (by decide)).1⟩

/-- C4 counterexample.  The claim says that on a set whose default token is
already cancelled every plain form yields an empty/zero result.  Evaluated
on the set `{1}` carrying a cancelled default token: the plain method
`Reduce` returns the full sum `1` (the source passes a `nil` context, not
`s.ctx`); the package-level plain `Union` returns the full contents (fn.go
passes `nil` too); `IsSuperset` against an empty argument returns `true`;
and `IsSubset` of an empty cancelled receiver against a larger set returns
`true`. -/
theorem C4_counterexample_plain_forms_not_zero :
    reduce { heap := [("1", (1 : Int))], ctx := Ctx.cancelled }
        (fun a b => a + b) 0 = 1
    ∧ (UnionF intKey { heap := [("1", (1 : Int))], ctx := Ctx.cancelled } []).heap
        = [("1", 1)]
    ∧ isSuperset intKey { heap := [("1", (1 : Int))], ctx := Ctx.cancelled }
        emptySet = true
    ∧ isSubset intKey { heap := [], ctx := Ctx.cancelled }
        { heap := [("1", (1 : Int))], ctx := Ctx.cancelled } = true := by
  decide

/-- C4 amended.  On a set whose default token is already cancelled, the
plain method forms that pass `s.ctx` behave as the claim says: `Elements`,
`Sorted` and `Filtered` return an empty slice; `Union`, `Intersection`,
`Difference`, `SymmetricDifference`, `Map`, `Filter` and `Copy` return an
empty set; `Contains` returns `false`; `IsSubset` returns `false` except
for an empty receiver against a non-empty argument (size pre-check);
`IsSuperset` returns `true` exactly when the argument is empty.  The
method `Reduce` and the package-level plain functions pass a `nil` token
instead, so they compute the full result and never observe the default
token's cancellation; and no plain form surfaces an error. -/
theorem C4_plain_forms_with_cancelled_default_token
    (α : Type) (kf : α → String) (s other : GoSet α)
    (fns : List (α → α → Bool)) (p : α → Bool) (f : α → α → α) (z : α)
    (m : α → α) (x : α) (others : List (GoSet α)) (k : String)
    (hc : s.ctx = Ctx.cancelled) :
    elements s = []
    ∧ sorted s fns = []
    ∧ filtered s p = []
    ∧ (union kf s other).heap = []
    ∧ (intersection kf s other).heap = []
    ∧ (difference kf s other).heap = []
    ∧ (symmetricDifference kf s other).heap = []
    ∧ (mapEndo kf s m).heap = []
    ∧ (filterSet kf s p).heap = []
    ∧ (copy kf s).heap = []
    ∧ contains kf s x = false
    ∧ isSubset kf s other = (s.heap.isEmpty && !other.heap.isEmpty)
    ∧ isSuperset kf s other = other.heap.isEmpty
    ∧ reduce s f z = s.heap.foldl (fun a q => f a q.2) z
    ∧ (UnionWithContextF kf Ctx.nil s others).2 = none
    ∧ containsKey (UnionF kf s others).heap k
        = (s.heap.any (fun q => kf q.2 == k)
            || others.any (fun o => o.heap.any (fun q => kf q.2 == k))) := by
  refine ⟨?_, ?_, ?_, ?_, ?_, ?_, ?_, ?_, ?_, ?_, ?_, ?_, ?_, ?_, ?_, ?_⟩
  · rcases hh : s.heap with _ | ⟨q, rest⟩ <;>
      simp [elements, hc, elementsWithContext, hh, elemsLoop, Ctx.done]
  · rcases hh : s.heap with _ | ⟨q, rest⟩
    · simp [sorted, hc, sortedWithContext_nil_heap _ hh]
    · simp [sorted, hc, sortedWithContext, hh, sortedGather, Ctx.done]
  · rcases hh : s.heap with _ | ⟨q, rest⟩ <;>
      simp [filtered, hc, filteredWithContext, hh, filteredLoop, Ctx.done]
  · rcases hh : s.heap with _ | ⟨q, rest⟩
    · rcases ho : other.heap with _ | ⟨u, us⟩ <;>
        simp [union, hc, unionWithContext, elementsWithContext, hh, ho,
          elemsLoop, addAll, emptySet, Ctx.done]
    · simp [union, hc, unionWithContext, elementsWithContext, hh,
        elemsLoop, emptySet, Ctx.done]
  · rcases hh : s.heap with _ | ⟨q, rest⟩ <;>
      simp [intersection, hc, intersectionWithContext, hh, interLoop,
        containsWithContext, emptySet, Ctx.done]
  · rcases hh : s.heap with _ | ⟨q, rest⟩ <;>
      simp [difference, hc, differenceWithContext, hh, diffLoop, emptySet,
        Ctx.done]
  · rcases hh : s.heap with _ | ⟨q, rest⟩
    · rcases ho : other.heap with _ | ⟨u, us⟩ <;>
        simp [symmetricDifference, hc, symmetricDifferenceWithContext, hh, ho,
          diffLoop, emptySet, Ctx.done]
    · simp [symmetricDifference, hc, symmetricDifferenceWithContext, hh,
        diffLoop, emptySet, Ctx.done]
  · rcases hh : s.heap with _ | ⟨q, rest⟩ <;>
      simp [mapEndo, hc, mapWithContext, hh, mapLoop, emptySet, Ctx.done]
  · rcases @filterLoop_cancelled _ kf p s.heap with hfl | hfl <;>
      simp [filterSet, hc, filterWithContext, hfl, emptySet]
  · rcases hh : s.heap with _ | ⟨q, rest⟩ <;>
      simp [copy, hc, copyWithContext, hh, copyLoop, addOneWithContext,
        emptySet, Ctx.done]
  · simp [contains, hc, containsWithContext, Ctx.done]
  · rcases hh : s.heap with _ | ⟨q, rest⟩
    · rcases ho : other.heap with _ | ⟨u, us⟩ <;>
        simp [isSubset, hc, isSubsetWithContext, hh, ho, subsetLoop, Ctx.done]
    · rcases ho : other.heap with _ | ⟨u, us⟩
      · simp [isSubset, hc, isSubsetWithContext, hh, ho, subsetLoop, Ctx.done]
      · simp only [isSubset, hc, isSubsetWithContext, hh, ho]
        split
        · simp
        · simp [subsetLoop, Ctx.done]
  · rcases ho : other.heap with _ | ⟨u, us⟩
    · simp [isSuperset, hc, isSupersetWithContext, ho, supersetLoop]
    · simp only [isSuperset, hc, isSupersetWithContext, ho]
      split
      · simp
      · simp [supersetLoop, containsWithContext, Ctx.done]
  · rw [reduce, reduceWithContext, show Ctx.nil.done = false from rfl,
      reduceLoop_not_done]
  · obtain ⟨h2, _⟩ := @unionFnLoop_not_done _ kf _
      (show Ctx.nil.done = false from rfl) s.heap []
    rcases hres : unionFnLoop kf Ctx.nil s.heap [] with ⟨r1, e1⟩
    rw [hres] at h2
    simp only at h2
    subst h2
    obtain ⟨h3, _⟩ := @unionFnOthers_not_done _ kf _
      (show Ctx.nil.done = false from rfl) others r1
    rcases hro : unionFnOthers kf Ctx.nil others r1 with ⟨r2, e2⟩
    rw [hro] at h3
    simp only at h3
    subst h3
    simp [UnionWithContextF, hres, hro]
  · obtain ⟨h2, hck1⟩ := @unionFnLoop_not_done _ kf _
      (show Ctx.nil.done = false from rfl) s.heap []
    rcases hres : unionFnLoop kf Ctx.nil s.heap [] with ⟨r1, e1⟩
    rw [hres] at h2 hck1
    simp only at h2 hck1
    subst h2
    obtain ⟨h3, hck2⟩ := @unionFnOthers_not_done _ kf _
      (show Ctx.nil.done = false from rfl) others r1
    rcases hro : unionFnOthers kf Ctx.nil others r1 with ⟨r2, e2⟩
    rw [hro] at h3 hck2
    simp only at h3 hck2
    subst h3
    simp only [UnionF, UnionWithContextF, hres, hro]
    rw [hck2 k, hck1 k]
    simp [containsKey]

/-- C4 witness: the amended theorem applied at the set `{1}` with a
cancelled default token. -/
theorem C4_plain_forms_with_cancelled_default_token_witness :
    ({ heap := [("1", (1 : Int))], ctx := Ctx.cancelled } : GoSet Int).ctx
        = Ctx.cancelled
    ∧ elements ({ heap := [("1", (1 : Int))], ctx := Ctx.cancelled } : GoSet Int)
        = [] :=
  ⟨rfl,
    (C4_plain_forms_with_cancelled_default_token Int intKey
      { heap := [("1", (1 : Int))], ctx := Ctx.cancelled } emptySet
      [] (fun _ => true) (fun a b => a + b) 0 (fun a => a) 1 [] "1" rfl).1⟩

/-- C5 counterexample.  The claim says the structural hasher is
deterministic for maps with any number of entries.  A two-entry map
observed in its two possible iteration orders — the same map value, as the
`Perm` conjunct records — produces two different digests (the streams are
`"a1b2"` and `"b2a1"`). -/
theorem C5_counterexample_map_iteration_order :
    SameVal (.mapv [(.leaf "a", .leaf "1"), (.leaf "b", .leaf "2")])
      (.mapv [(.leaf "b", .leaf "2"), (.leaf "a", .leaf "1")])
    ∧ toHashKey (.mapv [(.leaf "a", .leaf "1"), (.leaf "b", .leaf "2")])
        ≠ toHashKey (.mapv [(.leaf "b", .leaf "2"), (.leaf "a", .leaf "1")]) := by
  constructor
  · exact SameVal.mapPerm (List.Perm.swap _ _ _)
  · decide

/-- C5 amended.  Two invocations of the structural hasher on the same
value within one process produce the same key provided every map inside
the value has at most one entry; only the unspecified iteration order of a
multi-entry map can (and does) change the digest. -/
theorem C5_hash_deterministic_without_multi_entry_maps
    (v w : GoVal) (h : SameVal v w) (hm : noMultiMap v = true) :
    toHashKey v = toHashKey w := by
  rw [toHashKey, toHashStream_eq_of_sameVal h hm]
  rfl

/-- C5 witness: the amended theorem applied to a single-entry map. -/
theorem C5_hash_deterministic_without_multi_entry_maps_witness :
    SameVal (.mapv [(.leaf "a", .leaf "1")]) (.mapv [(.leaf "a", .leaf "1")])
    ∧ noMultiMap (.mapv [(.leaf "a", .leaf "1")]) = true
    ∧ toHashKey (.mapv [(.leaf "a", .leaf "1")])
        = toHashKey (.mapv [(.leaf "a", .leaf "1")]) :=
  ⟨SameVal.refl _, by decide,
    C5_hash_deterministic_without_multi_entry_maps _ _ (SameVal.refl _)
      (by decide)⟩

/-- C6.  When hashing a struct value the digest covers only the field
values, in declaration order: any two struct values whose field-value
lists coincide positionally hash to the same key whatever the field names
are. -/
theorem C6_struct_hash_ignores_field_names
    (fs gs : List (String × GoVal)) (h : fs.map Prod.snd = gs.map Prod.snd) :
    toHashKey (.strct fs) = toHashKey (.strct gs) := by
  rw [toHashKey]
  have hst : toHashStream (.strct fs) = toHashStream (.strct gs) := by
    simp only [toHashStream]
    exact fieldsStream_eq_of_snd_eq h
  rw [hst]
  rfl

/-- C6 witness: two structs with identical field values under different
field names (`{field1: 1, field2: "one"}` vs `{x: 1, y: "one"}`). -/
theorem C6_struct_hash_ignores_field_names_witness :
    ([("field1", GoVal.leaf "1"), ("field2", GoVal.leaf "one")].map Prod.snd
        = [("x", GoVal.leaf "1"), ("y", GoVal.leaf "one")].map Prod.snd)
    ∧ toHashKey (.strct [("field1", .leaf "1"), ("field2", .leaf "one")])
        = toHashKey (.strct [("x", .leaf "1"), ("y", .leaf "one")]) :=
  ⟨rfl, C6_struct_hash_ignores_field_names _ _ rfl⟩

/-- C7.  For all well-formed sets `A`, `B` whose default tokens are not
already cancelled, `SymmetricDifference(A, B)` contains exactly the same
elements as `Union(Difference(A, B), Difference(B, A))`, and an element
lies in the result exactly when it lies in exactly one of `A` and `B`. -/
theorem C7_symmetric_difference_is_union_of_differences
    (α : Type) (kf : α → String) (A B : GoSet α) (x : α)
    (hA : A.ctx.done = false) (hB : B.ctx.done = false)
    (hwfA : WFHeap kf A.heap) (hwfB : WFHeap kf B.heap) :
    contains kf (symmetricDifference kf A B) x
      = contains kf (union kf (difference kf A B) (difference kf B A)) x
    ∧ contains kf (symmetricDifference kf A B) x
      = ((contains kf A x) != (contains kf B x)) := by
  -- name the two diff scans and kill their error components
  obtain ⟨hd1none, hd1⟩ := @diffLoop_not_done _ kf B A.heap []
  rcases hr1 : diffLoop kf false B A.heap [] with ⟨r1, e1⟩
  rw [hr1] at hd1none hd1
  simp only at hd1none
  subst hd1none
  obtain ⟨hd2none, hd2⟩ := @diffLoop_not_done _ kf A B.heap r1
  rcases hr2 : diffLoop kf false A B.heap r1 with ⟨r2, e2⟩
  rw [hr2] at hd2none hd2
  simp only at hd2none
  subst hd2none
  obtain ⟨hd3none, hd3⟩ := @diffLoop_not_done _ kf A B.heap []
  rcases hr3 : diffLoop kf false A B.heap [] with ⟨r3, e3⟩
  rw [hr3] at hd3none hd3
  simp only at hd3none
  subst hd3none
  -- the three result sets
  have hsd : symmetricDifference kf A B = { heap := r2, ctx := Ctx.nil } := by
    simp [symmetricDifference, symmetricDifferenceWithContext, hA, hr1, hr2]
  have hdAB : difference kf A B = { heap := r1, ctx := Ctx.nil } := by
    simp [difference, differenceWithContext, hA, hr1]
  have hdBA : difference kf B A = { heap := r3, ctx := Ctx.nil } := by
    simp [difference, differenceWithContext, hB, hr3]
  have hu : union kf (difference kf A B) (difference kf B A)
      = { heap := addAll kf (addAll kf [] (heapValues r1)) (heapValues r3),
          ctx := Ctx.nil } := by
    rw [hdAB, hdBA]
    simp [union, unionWithContext, elementsWithContext, Ctx.done,
      elemsLoop_not_done]
  have hwf1 : WFHeap kf r1 := by
    have := @WFHeap_diffLoop _ kf B A.heap _ (@WFHeap_nil _ kf)
    rwa [hr1] at this
  have hwf3 : WFHeap kf r3 := by
    have := @WFHeap_diffLoop _ kf A B.heap _ (@WFHeap_nil _ kf)
    rwa [hr3] at this
  -- both sides reduce to the same flag expression in the two memberships
  have keyA : A.heap.any (fun p => !contains kf B p.2 && (kf p.2 == kf x))
      = (!containsKey B.heap (kf x) && containsKey A.heap (kf x)) := by
    have hg := @any_key_flag _ kf A.heap
      (fun key => !containsKey B.heap key) (kf x)
    simp only at hg
    simp only [contains_not_done hB]
    rw [hg, ← containsKey_eq_any_of_WF hwfA]
  have keyB : B.heap.any (fun p => !contains kf A p.2 && (kf p.2 == kf x))
      = (!containsKey A.heap (kf x) && containsKey B.heap (kf x)) := by
    have hg := @any_key_flag _ kf B.heap
      (fun key => !containsKey A.heap key) (kf x)
    simp only at hg
    simp only [contains_not_done hA]
    rw [hg, ← containsKey_eq_any_of_WF hwfB]
  have hvals1 : (heapValues r1).any (fun v => kf v == kf x)
      = containsKey r1 (kf x) := by
    rw [heapValues_any, containsKey_eq_any_of_WF hwf1]
  have hvals3 : (heapValues r3).any (fun v => kf v == kf x)
      = containsKey r3 (kf x) := by
    rw [heapValues_any, containsKey_eq_any_of_WF hwf3]
  have hL : contains kf (symmetricDifference kf A B) x
      = ((!containsKey B.heap (kf x) && containsKey A.heap (kf x))
          || (!containsKey A.heap (kf x) && containsKey B.heap (kf x))) := by
    rw [hsd,
      contains_not_done (s := { heap := r2, ctx := Ctx.nil }) rfl]
    simp only
    rw [hd2 (kf x), hd1 (kf x)]
    simp only [containsKey_nil, Bool.false_or]
    rw [keyA, keyB]
  have hR : contains kf (union kf (difference kf A B) (difference kf B A)) x
      = ((!containsKey B.heap (kf x) && containsKey A.heap (kf x))
          || (!containsKey A.heap (kf x) && containsKey B.heap (kf x))) := by
    rw [hu, contains_not_done
      (s := { heap := addAll kf (addAll kf [] (heapValues r1)) (heapValues r3),
              ctx := Ctx.nil }) rfl]
    simp only
    rw [containsKey_addAll, containsKey_addAll]
    simp only [containsKey_nil, Bool.false_or]
    rw [hvals1, hvals3, hd1 (kf x), hd3 (kf x)]
    simp only [containsKey_nil, Bool.false_or]
    rw [keyA, keyB]
  refine ⟨hL.trans hR.symm, ?_⟩
  rw [hL, contains_not_done hA, contains_not_done hB]
  rcases containsKey A.heap (kf x) <;> rcases containsKey B.heap (kf x) <;> rfl

/-- C7 witness: the theorem applied at `A = {1,2,3}`, `B = {2,3,4}`,
`x = 1`. -/
theorem C7_symmetric_difference_is_union_of_differences_witness :
    (New intKey [1, 2, 3]).ctx.done = false
    ∧ WFHeap intKey (New intKey [1, 2, 3]).heap
    ∧ contains intKey
        (symmetricDifference intKey (New intKey [1, 2, 3]) (New intKey [2, 3, 4])) 1
      = ((contains intKey (New intKey [1, 2, 3]) 1)
          != (contains intKey (New intKey [2, 3, 4]) 1)) :=
  ⟨by decide, by unfold WFHeap; decide,
    (C7_symmetric_difference_is_union_of_differences Int intKey
      (New intKey [1, 2, 3]) (New intKey [2, 3, 4]) 1
      (by decide) (by decide) (by unfold WFHeap; decide)
      (by unfold WFHeap; decide)).2⟩

/-- Allocation preserves every existing pointer's contents. -/
theorem getSet_allocSet_lt {α : Type} {w : World α} {n : Nat}
    (hn : n < w.length) (s : GoSet α) :
    getSet (allocSet w s).1 n = getSet w n := by
  simp only [getSet, allocSet, List.getD_eq_getElem?_getD]
  rw [List.getElem?_append_left hn]

/-- A write through one pointer leaves every other pointer's contents
unchanged. -/
theorem getSet_putSet_ne {α : Type} {w : World α} {i n : Nat} (h : n ≠ i)
    (s : GoSet α) : getSet (putSet w i s) n = getSet w n := by
  simp only [getSet, putSet, List.getD_eq_getElem?_getD]
  rw [List.getElem?_set_ne (Ne.symm h)]

/-- C8.  Every algebra and functional combinator (`Union`,
`Intersection`, `Difference`, `SymmetricDifference`, `Map`, `Filter`,
`Copy`) returns a freshly allocated set — its pointer is outside the
existing world — and leaves the contents of every existing set, in
particular both inputs, unchanged; `Append` and `Extend` write only
through the receiver pointer and leave their argument sets unchanged. -/
theorem C8_combinators_allocate_fresh_and_never_mutate_inputs
    (α : Type) (kf : α → String) (w : World α) (i j n : Nat)
    (f : α → α) (fn : α → Bool) :
    ((n < w.length → getSet (unionW kf w i j).1 n = getSet w n)
        ∧ (unionW kf w i j).2 = w.length)
    ∧ ((n < w.length → getSet (intersectionW kf w i j).1 n = getSet w n)
        ∧ (intersectionW kf w i j).2 = w.length)
    ∧ ((n < w.length → getSet (differenceW kf w i j).1 n = getSet w n)
        ∧ (differenceW kf w i j).2 = w.length)
    ∧ ((n < w.length → getSet (symmetricDifferenceW kf w i j).1 n = getSet w n)
        ∧ (symmetricDifferenceW kf w i j).2 = w.length)
    ∧ ((n < w.length → getSet (mapW kf w i f).1 n = getSet w n)
        ∧ (mapW kf w i f).2 = w.length)
    ∧ ((n < w.length → getSet (filterW kf w i fn).1 n = getSet w n)
        ∧ (filterW kf w i fn).2 = w.length)
    ∧ ((n < w.length → getSet (copyW kf w i).1 n = getSet w n)
        ∧ (copyW kf w i).2 = w.length)
    ∧ (n ≠ i → getSet (appendW kf w i j) n = getSet w n)
    ∧ (n ≠ i → getSet (extendW kf w i j) n = getSet w n) :=
  ⟨⟨fun hn => getSet_allocSet_lt hn _, rfl⟩,
    ⟨fun hn => getSet_allocSet_lt hn _, rfl⟩,
    ⟨fun hn => getSet_allocSet_lt hn _, rfl⟩,
    ⟨fun hn => getSet_allocSet_lt hn _, rfl⟩,
    ⟨fun hn => getSet_allocSet_lt hn _, rfl⟩,
    ⟨fun hn => getSet_allocSet_lt hn _, rfl⟩,
    ⟨fun hn => getSet_allocSet_lt hn _, rfl⟩,
    fun hn => getSet_putSet_ne hn _,
    fun hn => getSet_putSet_ne hn _⟩

/-- C8 witness: a two-set world; the union's result is slot 2 and the
argument set (slot 1) is untouched by `Union` and by `Append` into
slot 0. -/
theorem C8_combinators_allocate_fresh_and_never_mutate_inputs_witness :
    ((1 : Nat) < ([New intKey [1], New intKey [2]] : World Int).length)
    ∧ getSet (unionW intKey [New intKey [1], New intKey [2]] 0 1).1 1
        = getSet [New intKey [1], New intKey [2]] 1
    ∧ getSet (appendW intKey [New intKey [1], New intKey [2]] 0 1) 1
        = getSet [New intKey [1], New intKey [2]] 1 :=
  ⟨by decide,
    (C8_combinators_allocate_fresh_and_never_mutate_inputs Int intKey
      [New intKey [1], New intKey [2]] 0 1 1 (fun a => a)
      (fun _ => true)).1.1 (by decide),
    (C8_combinators_allocate_fresh_and_never_mutate_inputs Int intKey
      [New intKey [1], New intKey [2]] 0 1 1 (fun a => a)
      (fun _ => true)).2.2.2.2.2.2.2.1 (by decide)⟩

/-- C9.  Round-trip through the serialization adapter: unmarshalling the
marshalled form of a well-formed set `S` into a fresh set yields a set of
the same length whose `Contains` answers agree with `S` on every element
of `S`.  (The adapter itself is modelled from the spec, its implementation
being absent from the sources.) -/
theorem C9_json_round_trip
    (α : Type) (kf : α → String) (S : GoSet α)
    (hwf : WFHeap kf S.heap) (hnd : NodupKeys S.heap)
    (hctx : S.ctx.done = false) :
    (unmarshalJSON kf (New kf []) (marshalJSON S)).heap.length = S.heap.length
    ∧ ∀ x ∈ elements S,
        contains kf (unmarshalJSON kf (New kf []) (marshalJSON S)) x
          = contains kf S x := by
  have hmap : S.heap.map Prod.fst = (heapValues S.heap).map kf := by
    rw [heapValues, List.map_map]
    exact List.map_congr_left hwf
  have hnd2 : ((heapValues S.heap).map kf).Nodup := by
    rw [← hmap]
    exact hnd
  constructor
  · show (addAll kf [] (heapValues S.heap)).length = S.heap.length
    rw [length_addAll_of_nodup (heapValues S.heap) [] hnd2
      (fun v _ => rfl)]
    simp [heapValues]
  · intro x hx
    have he : elements S = heapValues S.heap := by
      rw [elements, elementsWithContext_not_done hctx]
    rw [he] at hx
    obtain ⟨p, hp, hpx⟩ := List.mem_map.mp hx
    have hTctx : (unmarshalJSON kf (New kf []) (marshalJSON S)).ctx.done
        = false := rfl
    rw [contains_not_done hTctx x, contains_not_done hctx x]
    have hT : containsKey (unmarshalJSON kf (New kf []) (marshalJSON S)).heap
        (kf x) = true := by
      show containsKey (addAll kf [] (heapValues S.heap)) (kf x) = true
      rw [containsKey_addAll]
      refine Bool.or_eq_true_iff.mpr (Or.inr ?_)
      exact List.any_eq_true.mpr ⟨x, hx, by simp⟩
    have hS : containsKey S.heap (kf x) = true := by
      refine List.any_eq_true.mpr ⟨p, hp, ?_⟩
      have := hwf p hp
      rw [← hpx, ← this]
      simp
    rw [hT, hS]

/-- C9 witness: the round trip applied to the set `{1,2,3}`. -/
theorem C9_json_round_trip_witness :
    WFHeap intKey (New intKey [1, 2, 3]).heap
    ∧ NodupKeys (New intKey [1, 2, 3]).heap
    ∧ (unmarshalJSON intKey (New intKey [])
          (marshalJSON (New intKey [1, 2, 3]))).heap.length
        = (New intKey [1, 2, 3]).heap.length :=
  ⟨by unfold WFHeap; decide, by unfold NodupKeys; decide,
    (C9_json_round_trip Int intKey (New intKey [1, 2, 3])
      (by unfold WFHeap; decide) (by unfold NodupKeys; decide)
      (by decide)).1⟩

/-- C10.  A set constructed by `NewWithContext` with an already-cancelled
token is created empty — the initial items are silently discarded — and a
plain `Add` on any set whose default token is cancelled leaves it
unchanged (so such a set stays empty); an explicit-token `addWithContext`
with a cancelled token inserts nothing either, while with a live token it
succeeds and makes every given item a member. -/
theorem C10_cancelled_construction_discards_items
    (α : Type) (kf : α → String) (s : GoSet α) (items : List α) (v : α)
    (hc : s.ctx = Ctx.cancelled) :
    NewWithContext kf Ctx.cancelled items = { heap := [], ctx := Ctx.cancelled }
    ∧ add kf s items = s
    ∧ (addWithContext kf Ctx.cancelled s items).1 = s
    ∧ (addWithContext kf Ctx.live s items).2 = none
    ∧ (v ∈ items →
        containsKey (addWithContext kf Ctx.live s items).1.heap (kf v) = true) := by
  refine ⟨?_, ?_, ?_, ?_, ?_⟩
  · cases items <;>
      simp [NewWithContext, add, addWithContext, addOneWithContext, Ctx.done]
  · rw [add, hc]
    cases items <;> simp [addWithContext, addOneWithContext, Ctx.done]
  · cases items <;> simp [addWithContext, addOneWithContext, Ctx.done]
  · rw [addWithContext_not_done (show Ctx.live.done = false from rfl) s items]
  · intro hv
    rw [addWithContext_not_done (show Ctx.live.done = false from rfl) s items]
    simp only
    rw [containsKey_addAll]
    refine Bool.or_eq_true_iff.mpr (Or.inr ?_)
    exact List.any_eq_true.mpr ⟨v, hv, by simp⟩

/-- C10 witness: construction with a cancelled token and item `7`. -/
theorem C10_cancelled_construction_discards_items_witness :
    ({ heap := [], ctx := Ctx.cancelled } : GoSet Int).ctx = Ctx.cancelled
    ∧ NewWithContext intKey Ctx.cancelled [(7 : Int)]
        = { heap := [], ctx := Ctx.cancelled } :=
  ⟨rfl,
    (C10_cancelled_construction_discards_items Int intKey
      { heap := [], ctx := Ctx.cancelled } [7] 7 rfl).1⟩

end GoloopSet
